import Mathlib

/-!
Verification of the norg-fmt canonicalizing formatter.

The formatter's core functions (src/main.rs, src/inline.rs, src/block.rs,
src/converter.rs) are shallowly embedded here.  Rust `String`s are modelled
as `List Char`; the ASCII inputs the formatter manipulates make byte length
and character length coincide.  Fallible formatters (`eyre::Result`) are
modelled with `Option`, `none` standing for the error (or, where noted in a
doc comment, a panic).
-/

namespace NorgFmt

/-- Rendered node: the `NorgNode { kind, content }` struct of src/main.rs. -/
structure NorgNode where
  kind : String
  content : List Char
deriving DecidableEq, Repr

/-- The `Config` struct of src/main.rs. -/
structure Config where
  newline_after_headings : Bool
  indent_headings : Bool
  line_length : Nat
deriving DecidableEq, Repr

/-- `Config::default()` from src/main.rs. -/
def defaultConfig : Config :=
  { newline_after_headings := false, indent_headings := false, line_length := 80 }

/-- `char::is_ascii_punctuation` from the Rust standard library:
U+0021..=U+002F, U+003A..=U+0040, U+005B..=U+0060, U+007B..=U+007E. -/
def isAsciiPunct (c : Char) : Bool :=
  (0x21 ≤ c.toNat && c.toNat ≤ 0x2f) || (0x3a ≤ c.toNat && c.toNat ≤ 0x40) ||
  (0x5b ≤ c.toNat && c.toNat ≤ 0x60) || (0x7b ≤ c.toNat && c.toNat ≤ 0x7e)

/-- Whitespace, as matched by the regex class `\s` and by `str::trim` on the
ASCII range the formatter works with. -/
def isWs (c : Char) : Bool :=
  c = ' ' || c = '\t' || c = '\n' || c = '\x0d' || c = '\x0b' || c = '\x0c'

/-- Horizontal whitespace: the regex class `[ \t\v]` of `block::title`. -/
def isHWs (c : Char) : Bool :=
  c = ' ' || c = '\t' || c = '\x0b'

/-- A line break character, the class `[\r\n]` used by the formatters. -/
def isBreak (c : Char) : Bool :=
  c = '\n' || c = '\x0d'

/-- `str::trim_start` on the model: drop the leading whitespace run. -/
def ltrimChars (s : List Char) : List Char :=
  s.dropWhile isWs

/-- `str::trim_end` on the model: drop the trailing whitespace run. -/
def rtrimChars (s : List Char) : List Char :=
  (s.reverse.dropWhile isWs).reverse

/-- `str::trim` on the model: drop the leading and trailing whitespace runs. -/
def trimChars (s : List Char) : List Char :=
  rtrimChars (ltrimChars s)

/-- `" ".repeat n` from the Rust sources. -/
def spaces (n : Nat) : List Char :=
  List.replicate n ' '

/-- The `rest` helper of src/main.rs: concatenate the contents of
`children.iter().take(to.unwrap_or(len)).skip(from.unwrap_or(0))`. -/
def rest (children : List NorgNode) (lo hi : Option Nat) : List Char :=
  (((children.take (hi.getD children.length)).drop (lo.getD 0)).map NorgNode.content).flatten

/-- `inline::escape_sequence` from src/inline.rs, as a function of the node's
source text: look at the last character (`chars().nth_back(0)`; `none` models
the `unwrap` panic on empty text); keep the whole text when it is ASCII
punctuation, otherwise keep only that character. -/
def escape_sequence (text : List Char) : Option (List Char) :=
  match text.getLast? with
  | none => none
  | some c => if isAsciiPunct c then some text else some [c]

/-- C5: for an escape-sequence leaf whose source text is a backslash followed
by exactly one character x, the formatter returns the two characters unchanged
when x is ASCII punctuation and only x (the backslash dropped) otherwise. -/
theorem escape_sequence_two_chars (x : Char) :
    escape_sequence ['\\', x] = some (if isAsciiPunct x then ['\\', x] else [x]) := by
  cases h : isAsciiPunct x <;> simp [escape_sequence, List.getLast?, h]

/-- The regex replacement of `inline::markup`: `replace_all` of
`\\([[:punct:]])` by the captured character, i.e. strip the backslash from
every backslash–ASCII-punctuation pair, scanning left to right. -/
def unescape : List Char → List Char
  | [] => []
  | ['\\'] => ['\\']
  | '\\' :: c :: restChars =>
    if isAsciiPunct c then c :: unescape restChars
    else '\\' :: unescape (c :: restChars)
  | c :: restChars => c :: unescape restChars

/-- Test of the `should_make_free_form` closure of `inline::markup`: the child
is an escape sequence whose last character is ASCII punctuation. -/
def escLastPunct (n : NorgNode) : Bool :=
  n.kind == "escape_sequence" &&
    (match n.content.getLast? with
     | some c => isAsciiPunct c
     | none => false)

/-- The `is_free_form` test of `inline::markup`: the child at index 1 has kind
`free_form_open`. -/
def isFreeForm (children : List NorgNode) : Bool :=
  match children.get? 1 with
  | some c => c.kind == "free_form_open"
  | none => false

/-- `inline::markup` from src/inline.rs.  The leading guard models the panic
of `chars().nth_back(0).unwrap()` on an escape-sequence child with empty
content; the `none`s of the match model the `ok_or` errors on a missing
child 1 (`malformed attached modifier input`) or child 0 (`markup has no
opening modifier`). -/
def markup (children : List NorgNode) : Option (List Char) :=
  if children.any (fun v => v.kind == "escape_sequence" && v.content.isEmpty) then none
  else
    match children.get? 1, children.get? 0 with
    | some _, some c0 =>
      let smff := children.any escLastPunct
      let isff := isFreeForm children
      if smff && !isff then
        some (c0.content ++ '|' ::
          unescape (rest children (some 1) (some (children.length - 1))) ++ '|' :: c0.content)
      else if !smff && isff then
        some (c0.content ++ rest children (some 2) (some (children.length - 2)) ++ c0.content)
      else
        some (c0.content ++ rest children (some 1) none)
    | _, _ => none

theorem rest_body (c0 cl : NorgNode) (mid : List NorgNode) :
    rest (c0 :: (mid ++ [cl])) (some 1) (some ((c0 :: (mid ++ [cl])).length - 1)) =
      (mid.map NorgNode.content).flatten := by
  have hlen : (c0 :: (mid ++ [cl])).length - 1 = mid.length + 1 := by
    simp [List.length_append]
  rw [rest, hlen]
  simp [List.take_succ_cons, List.take_left]

theorem rest_from_one (c0 : NorgNode) (tl : List NorgNode) :
    rest (c0 :: tl) (some 1) none = (tl.map NorgNode.content).flatten := by
  rw [rest]
  simp

/-- C1: decision procedure for markup spans, per the decision table.  The span
is `c0 :: mid ++ [cl]` (opening delimiter, middle children, closing
delimiter); the hypothesis rules out the degenerate escape-sequence child with
empty content on which the source would panic.  Case 1: escaped punctuation
present, no free-form opener: rewrite to `C|unescape(body)|C` with body =
children 1..len-1.  Case 2: free-form opener present, no escaped punctuation:
collapse to `C body C` with the wrappers (children 1 and len-2) dropped.
Case 3: otherwise the span is returned as written, the delimiter followed by
the remaining children's content. -/
theorem markup_decision_table (c0 cl : NorgNode) (mid : List NorgNode)
    (hne : ∀ v ∈ c0 :: (mid ++ [cl]), v.kind = "escape_sequence" → v.content ≠ []) :
    (((c0 :: (mid ++ [cl])).any escLastPunct = true →
       isFreeForm (c0 :: (mid ++ [cl])) = false →
       markup (c0 :: (mid ++ [cl])) =
         some (c0.content ++ '|' :: unescape ((mid.map NorgNode.content).flatten)
           ++ '|' :: c0.content))
    ∧ (∀ ffo ffc (body : List NorgNode), mid = ffo :: (body ++ [ffc]) →
       ffo.kind = "free_form_open" →
       (c0 :: (mid ++ [cl])).any escLastPunct = false →
       markup (c0 :: (mid ++ [cl])) =
         some (c0.content ++ (body.map NorgNode.content).flatten ++ c0.content))
    ∧ ((c0 :: (mid ++ [cl])).any escLastPunct = isFreeForm (c0 :: (mid ++ [cl])) →
       markup (c0 :: (mid ++ [cl])) =
         some (c0.content ++ ((mid ++ [cl]).map NorgNode.content).flatten))) := by
  have hguard : (c0 :: (mid ++ [cl])).any
      (fun v => v.kind == "escape_sequence" && v.content.isEmpty) = false := by
    rw [List.any_eq_false]
    intro v hv
    rcases h : v.kind == "escape_sequence" with _ | _
    · simp
    · have hk : v.kind = "escape_sequence" := by
        simpa using h
      have := hne v hv hk
      simp [this]
  have hget0 : (c0 :: (mid ++ [cl])).get? 0 = some c0 := rfl
  have hget1 : ∃ c, (c0 :: (mid ++ [cl])).get? 1 = some c := by
    cases mid with
    | nil => exact ⟨cl, rfl⟩
    | cons m ms => exact ⟨m, rfl⟩
  obtain ⟨c1', hc1⟩ := hget1
  refine ⟨?_, ?_, ?_⟩
  · intro hsm hff
    rw [markup, hguard]
    simp only [hc1, hget0, hsm, hff]
    rw [rest_body]
    simp
  · intro ffo ffc body hmid hffk hsm
    have hff : isFreeForm (c0 :: (mid ++ [cl])) = true := by
      subst hmid
      simp [isFreeForm, List.get?, hffk]
    rw [markup, hguard]
    simp only [hc1, hget0, hsm, hff]
    have hlen2 : (c0 :: (mid ++ [cl])).length - 2 = body.length + 2 := by
      subst hmid
      simp [List.length_append]
    have hrest : rest (c0 :: (mid ++ [cl])) (some 2) (some ((c0 :: (mid ++ [cl])).length - 2)) =
        (body.map NorgNode.content).flatten := by
      rw [rest, hlen2]
      subst hmid
      have harr : (ffo :: (body ++ [ffc])) ++ [cl] = ffo :: (body ++ ([ffc] ++ [cl])) := by
        simp
      rw [harr]
      simp only [Option.getD_some, List.take_succ_cons, List.drop_succ_cons, List.drop_zero]
      simp [List.take_left]
    rw [hrest]
    simp
  · intro heq
    rw [markup, hguard]
    simp only [hc1, hget0]
    have h1 : ((c0 :: (mid ++ [cl])).any escLastPunct &&
        !isFreeForm (c0 :: (mid ++ [cl]))) = false := by
      rw [heq]
      cases isFreeForm (c0 :: (mid ++ [cl])) <;> simp
    have h2 : (!(c0 :: (mid ++ [cl])).any escLastPunct &&
        isFreeForm (c0 :: (mid ++ [cl]))) = false := by
      rw [heq]
      cases isFreeForm (c0 :: (mid ++ [cl])) <;> simp
    simp only [h1, h2, if_false, Bool.false_eq_true]
    rw [rest_from_one]

/-- Concrete instance of the markup decision table: the span
`*hello\* world*` is rewritten to the free form `*|hello* world|*`. -/
theorem markup_decision_table_witness :
    markup [⟨"open", ['*']⟩, ⟨"word", ['h', 'i']⟩,
        ⟨"escape_sequence", ['\\', '*']⟩, ⟨"close", ['*']⟩] =
      some ['*', '|', 'h', 'i', '*', '|', '*'] := by
  have h := (markup_decision_table ⟨"open", ['*']⟩ ⟨"close", ['*']⟩
    [⟨"word", ['h', 'i']⟩, ⟨"escape_sequence", ['\\', '*']⟩] (by decide)).1
    (by decide) (by decide)
  exact h.trans (by decide)

/-- `str::split_inclusive` over a character class: split after every matching
character, keeping the matched terminator at the end of its piece; the empty
string yields no pieces. -/
def splitInclusive (p : Char → Bool) : List Char → List (List Char)
  | [] => []
  | c :: restChars =>
    if p c then [c] :: splitInclusive p restChars
    else
      match splitInclusive p restChars with
      | [] => [[c]]
      | piece :: ps => (c :: piece) :: ps

/-- `block::nestable_modifier` from src/block.rs: trimmed prefix from child 0,
body = concatenated remaining children, split inclusively on `[\n\r]`; the
first piece follows `prefix + " "`, later pieces are indented by
`prefix.len()+1` spaces unless blank.  `none` models the two `ok_or` errors
(no prefix child / no content). -/
def nestable_modifier (children : List NorgNode) : Option (List Char) :=
  match children with
  | [] => none
  | c0 :: cs =>
    let pfx := trimChars c0.content
    match splitInclusive isBreak ((cs.map NorgNode.content).flatten) with
    | [] => none
    | firstLine :: laterLines =>
      some (pfx ++ ' ' :: firstLine ++
        (laterLines.map (fun str =>
          if (trimChars str).isEmpty then str else spaces (pfx.length + 1) ++ str)).flatten)

/-- C3: for a nestable modifier (list item) whose child 0 has prefix of
trimmed length n and whose body (the remaining children's concatenated
content) is non-empty: the output is the prefix, one space, and the body's
first line; each later non-blank line (terminator kept, as split-inclusive
pieces) is prefixed with exactly n+1 spaces; blank lines pass unmodified. -/
theorem nestable_modifier_indents (c0 : NorgNode) (cs : List NorgNode)
    (firstLine : List Char) (laterLines : List (List Char))
    (hsplit : splitInclusive isBreak ((cs.map NorgNode.content).flatten) =
      firstLine :: laterLines) :
    nestable_modifier (c0 :: cs) =
      some (trimChars c0.content ++ ' ' :: firstLine ++
        (laterLines.map (fun str =>
          if (trimChars str).isEmpty then str
          else spaces ((trimChars c0.content).length + 1) ++ str)).flatten) := by
  rw [nestable_modifier]
  simp only [hsplit]

/-- Concrete instance: `- Text \n - more` body indents the continuation line
with two spaces (prefix `-` has trimmed length 1). -/
theorem nestable_modifier_indents_witness :
    nestable_modifier [⟨"pfx", ['-', ' ']⟩,
        ⟨"paragraph", ['T', '\n', 'm', 'o', 'r', 'e']⟩] =
      some ['-', ' ', 'T', '\n', ' ', ' ', 'm', 'o', 'r', 'e'] := by
  have h := nestable_modifier_indents ⟨"pfx", ['-', ' ']⟩
    [⟨"paragraph", ['T', '\n', 'm', 'o', 'r', 'e']⟩]
    ['T', '\n'] [['m', 'o', 'r', 'e']] (by decide)
  exact h.trans (by decide)

/-- One step of the run-splitter: prepend character c to an already computed
(pieces, matches) pair. -/
def rsplitStep (p : Char → Bool) (c : Char) :
    List (List Char) × List (List Char) → List (List Char) × List (List Char)
  | (ps, ms) =>
    if p c then
      match ps, ms with
      | [] :: ps', m :: ms' => ([] :: ps', (c :: m) :: ms')
      | ps, ms => ([] :: ps, [c] :: ms)
    else
      match ps with
      | [] => ([[c]], ms)
      | piece :: ps' => ((c :: piece) :: ps', ms)

/-- Model of a regex run over a character class: `rsplit p s` returns the
pieces produced by `Regex::split` on the pattern `[class]+` together with the
matched runs from `find_iter`, in order.  Pieces always number one more than
runs. -/
def rsplit (p : Char → Bool) : List Char → List (List Char) × List (List Char)
  | [] => ([[]], [])
  | c :: restChars => rsplitStep p c (rsplit p restChars)

theorem rsplit_fst_ne_nil (p : Char → Bool) (s : List Char) :
    (rsplit p s).1 ≠ [] := by
  induction s with
  | nil => simp [rsplit]
  | cons c r ih =>
    rw [rsplit]
    rcases h : rsplit p r with ⟨ps, ms⟩
    rcases hp : p c with _ | _
    · cases ps with
      | nil => simp [rsplitStep, hp]
      | cons piece ps' => simp [rsplitStep, hp]
    · cases ps with
      | nil => simp [rsplitStep, hp]
      | cons piece ps' =>
        cases piece with
        | nil =>
          cases ms with
          | nil => simp [rsplitStep, hp]
          | cons m ms' => simp [rsplitStep, hp]
        | cons d piece' => simp [rsplitStep, hp]

theorem rsplit_pos_head (p : Char → Bool) (d : Char) (r' : List Char)
    (hd : p d = true) :
    ∃ ps' m ms', rsplit p (d :: r') = ([] :: ps', m :: ms') := by
  rw [rsplit]
  rcases h : rsplit p r' with ⟨ps, ms⟩
  cases ps with
  | nil => exact ⟨[], [d], ms, by simp [rsplitStep, hd]⟩
  | cons piece ps' =>
    cases piece with
    | nil =>
      cases ms with
      | nil => exact ⟨[] :: ps', [d], [], by simp [rsplitStep, hd]⟩
      | cons m ms' => exact ⟨ps', d :: m, ms', by simp [rsplitStep, hd]⟩
    | cons e piece' => exact ⟨(e :: piece') :: ps', [d], ms, by simp [rsplitStep, hd]⟩

theorem rsplit_neg_head (p : Char → Bool) (d : Char) (r' : List Char)
    (hd : p d = false) :
    ∃ h t, (rsplit p r').1 = h :: t ∧
      rsplit p (d :: r') = ((d :: h) :: t, (rsplit p r').2) := by
  rcases hsp : rsplit p r' with ⟨ps, ms⟩
  cases ps with
  | nil =>
    have hne := rsplit_fst_ne_nil p r'
    rw [hsp] at hne
    simp at hne
  | cons piece ps' =>
    refine ⟨piece, ps', by simp [hsp], ?_⟩
    rw [rsplit, hsp]
    simp [rsplitStep, hd]

/-- Model of `Regex::replace_all` on the pattern `[class]+` with replacement
a single space: every maximal run of class characters becomes one space. -/
def collapseRuns (p : Char → Bool) : List Char → List Char
  | [] => []
  | c :: restChars =>
    if p c then
      match restChars with
      | [] => [' ']
      | d :: _ =>
        if p d then collapseRuns p restChars else ' ' :: collapseRuns p restChars
    else c :: collapseRuns p restChars

/-- Rust's `Vec::join` / `Itertools::join` on the model: concatenate the
pieces, interposing the separator. -/
def joinSep (sep : List Char) : List (List Char) → List Char
  | [] => []
  | [x] => x
  | x :: xs => x ++ sep ++ joinSep sep xs

theorem joinSep_cons_head (sep : List Char) (c : Char) (h : List Char)
    (t : List (List Char)) :
    joinSep sep ((c :: h) :: t) = c :: joinSep sep (h :: t) := by
  cases t with
  | nil => rfl
  | cons x xs => simp [joinSep]

theorem collapseRuns_neg (p : Char → Bool) (c : Char) (r : List Char)
    (hc : p c = false) : collapseRuns p (c :: r) = c :: collapseRuns p r := by
  simp [collapseRuns, hc]

theorem collapseRuns_pos_pos (p : Char → Bool) (c d : Char) (r' : List Char)
    (hc : p c = true) (hd : p d = true) :
    collapseRuns p (c :: d :: r') = collapseRuns p (d :: r') := by
  simp [collapseRuns, hc, hd]

theorem collapseRuns_pos_neg (p : Char → Bool) (c d : Char) (r' : List Char)
    (hc : p c = true) (hd : p d = false) :
    collapseRuns p (c :: d :: r') = ' ' :: collapseRuns p (d :: r') := by
  simp [collapseRuns, hc, hd]

/-- Replacing every class run by one space is the same as interposing single
spaces between the run-splitter's pieces. -/
theorem collapseRuns_eq_joinSep (p : Char → Bool) (s : List Char) :
    collapseRuns p s = joinSep [' '] (rsplit p s).1 := by
  induction s with
  | nil => simp [collapseRuns, rsplit, joinSep]
  | cons c r ih =>
    rcases hc : p c with _ | _
    · obtain ⟨h, t, hfst, hr⟩ := rsplit_neg_head p c r hc
      rw [hr, joinSep_cons_head, collapseRuns_neg p c r hc, ih, hfst]
    · cases r with
      | nil => simp [collapseRuns, rsplit, rsplitStep, hc, joinSep]
      | cons d r' =>
        rcases hd : p d with _ | _
        · obtain ⟨h, t, hfst, hr⟩ := rsplit_neg_head p d r' hd
          rw [rsplit, hr]
          have hstep : rsplitStep p c (((d :: h) :: t, (rsplit p r').2)) =
              ([] :: (d :: h) :: t, [c] :: (rsplit p r').2) := by
            simp [rsplitStep, hc]
          rw [hstep, collapseRuns_pos_neg p c d r' hc hd, ih, hr]
          simp [joinSep]
        · obtain ⟨ps', m, ms', hr⟩ := rsplit_pos_head p d r' hd
          rw [rsplit, hr]
          have hstep : rsplitStep p c (([] :: ps', m :: ms')) =
              ([] :: ps', (c :: m) :: ms') := by
            simp [rsplitStep, hc]
          rw [hstep, collapseRuns_pos_pos p c d r' hc hd, ih, hr]

/-- `block::title` from src/block.rs: collapse every `[ \t\v]+` run in the
concatenated children content into a single space. -/
def title (children : List NorgNode) : List Char :=
  collapseRuns isHWs ((children.map NorgNode.content).flatten)

/-- The per-child re-indentation of `block::heading` / `parse_heading`:
split the child's content on `[\r\n]+` runs, drop empty pieces, indent each
kept piece by `stars.len()+1` spaces and reattach its terminator run (or a
newline when it had none); a nested heading is left untouched when
`config.indent_headings` is false. -/
def transformChild (stars : List Char) (cfg : Config) (node : NorgNode) : NorgNode :=
  if !cfg.indent_headings && node.kind == "heading" then node
  else
    { kind := node.kind,
      content :=
        (((rsplit isBreak node.content).1.enum.filter (fun pr => !pr.2.isEmpty)).map
          (fun pr => spaces (stars.length + 1) ++ pr.2 ++
            ((rsplit isBreak node.content).2.get? pr.1).getD ['\n'])).flatten }

/-- `block::heading` from src/block.rs (identical to `parse_heading` in
src/main.rs): header from children 0 (stars) and 1 (title) with an optional
trailing newline, then the transformed remaining children. -/
def heading (children : List NorgNode) (cfg : Config) : Option (List Char) :=
  match children.get? 0, children.get? 1 with
  | some c0, some c1 =>
    some ((c0.content ++ ' ' :: c1.content ++
        (if cfg.newline_after_headings then ['\n'] else [])) ++
      rest (children.map (transformChild c0.content cfg)) (some 2) none)
  | _, _ => none

theorem transformChild_content (stars : List Char) (cfg : Config) (n : NorgNode) :
    (transformChild stars cfg n).content =
      if !cfg.indent_headings && n.kind == "heading" then n.content
      else (((rsplit isBreak n.content).1.enum.filter (fun pr => !pr.2.isEmpty)).map
        (fun pr => spaces (stars.length + 1) ++ pr.2 ++
          ((rsplit isBreak n.content).2.get? pr.1).getD ['\n'])).flatten := by
  rw [transformChild]
  split <;> rfl

theorem rest_from_two (c0 c1 : NorgNode) (tl : List NorgNode) :
    rest (c0 :: c1 :: tl) (some 2) none = (tl.map NorgNode.content).flatten := by
  rw [rest]
  simp

/-- C4: a heading with star child 0 and title child 1 renders as the stars,
one space, the title, a newline iff `newline_after_headings`; then each
remaining child's content in order, its non-empty `[\r\n]+`-separated lines
indented by `stars.len()+1` spaces with the original terminator run kept (a
newline appended when absent), except that a nested heading child stays
un-indented when `indent_headings` is false. -/
theorem heading_renders (c0 c1 : NorgNode) (cs : List NorgNode) (cfg : Config) :
    heading (c0 :: c1 :: cs) cfg =
      some (c0.content ++ ' ' :: c1.content ++
        (if cfg.newline_after_headings then ['\n'] else []) ++
        (cs.map (fun n =>
          if !cfg.indent_headings && n.kind == "heading" then n.content
          else (((rsplit isBreak n.content).1.enum.filter (fun pr => !pr.2.isEmpty)).map
            (fun pr => spaces (c0.content.length + 1) ++ pr.2 ++
              ((rsplit isBreak n.content).2.get? pr.1).getD ['\n'])).flatten)).flatten) := by
  rw [show heading (c0 :: c1 :: cs) cfg =
      some ((c0.content ++ ' ' :: c1.content ++
          (if cfg.newline_after_headings then ['\n'] else [])) ++
        rest ((c0 :: c1 :: cs).map (transformChild c0.content cfg)) (some 2) none)
    from rfl]
  rw [List.map_cons, List.map_cons, rest_from_two, List.map_map]
  simp only [Function.comp_def]
  have hmap := List.map_congr_left
    (fun n _ => transformChild_content c0.content cfg n) (l := cs)
  rw [hmap]

/-- C6: the title formatter's output is the concatenated children content
with every run of horizontal whitespace (space, tab, vertical tab — not
newlines) replaced by a single space: equivalently, the pieces between
maximal horizontal-whitespace runs joined by single spaces. -/
theorem title_collapses_hws (children : List NorgNode) :
    title children =
      joinSep [' '] (rsplit isHWs ((children.map NorgNode.content).flatten)).1 := by
  rw [title, collapseRuns_eq_joinSep]

/-- `str::starts_with` against the single-character `mergables` entries of the
paragraph reflow. -/
def startsWithAny (stickies : List Char) (s : List Char) : Bool :=
  match s with
  | [] => false
  | c :: _ => stickies.contains c

/-- The closure given to `Itertools::coalesce` in the paragraph reflow:
a token starting with a sticky opening character absorbs the next token,
with a single joining space. -/
def stickyMerge (stickies : List Char) (a b : List Char) : Option (List Char) :=
  if startsWithAny stickies a then some (a ++ ' ' :: b) else none

/-- Worker for `Itertools::coalesce`: `acc` is the element group being
accumulated; a successful merge continues the group, a failed one emits
`acc` and starts over from the next element. -/
def coalesceAux (f : List Char → List Char → Option (List Char)) (acc : List Char) :
    List (List Char) → List (List Char)
  | [] => [acc]
  | x :: restToks =>
    match f acc x with
    | some m => coalesceAux f m restToks
    | none => acc :: coalesceAux f x restToks

/-- `Itertools::coalesce` on the model. -/
def coalesce (f : List Char → List Char → Option (List Char)) :
    List (List Char) → List (List Char)
  | [] => []
  | x :: restToks => coalesceAux f x restToks

/-- One step of the greedy line fold of the paragraph reflow: append the
token to the last line if it still fits (strict `<`, reserving room for the
separating space), otherwise trim the last line in place and open a new line
holding just the token. -/
def reflowStep (L : Nat) (lines : List (List Char)) (w : List Char) :
    List (List Char) :=
  match lines.getLast? with
  | none => lines
  | some cur =>
    if cur.length + w.length < L then
      lines.dropLast ++ [cur ++ ' ' :: w]
    else
      lines.dropLast ++ [trimChars cur, w]

/-- Exclusive split on a character class (the pieces of `Regex::split` on a
single-character pattern, terminators dropped). -/
def splitExcl (p : Char → Bool) : List Char → List (List Char)
  | [] => [[]]
  | c :: restChars =>
    if p c then [] :: splitExcl p restChars
    else
      match splitExcl p restChars with
      | [] => [[c]]
      | h :: t => (c :: h) :: t

/-- The lines of a rendered string: split on newline characters. -/
def linesOf (s : List Char) : List (List Char) :=
  splitExcl (fun c => c = '\n') s

/-- The shared reflow pipeline of `inline::paragraph` (src/inline.rs) and
`reflow_paragraph` (src/converter.rs): split the content on `\s+` runs,
coalesce sticky-opener tokens with their successors, pack tokens greedily
onto lines of width `L`, join with newlines and trim. -/
def reflowCore (L : Nat) (stickies : List Char) (content : List Char) : List Char :=
  trimChars (joinSep ['\n']
    ((coalesce (stickyMerge stickies) (rsplit isWs content).1).foldl
      (reflowStep L) [[]]))

/-- `inline::paragraph` from src/inline.rs: the reflow pipeline over the
concatenated children content, sticky set `{`, width `config.line_length`. -/
def paragraph (cfg : Config) (children : List NorgNode) : List Char :=
  reflowCore cfg.line_length ['\x7b'] ((children.map NorgNode.content).flatten)

/-- `reflow_paragraph` from src/converter.rs: the same pipeline over the
joined input strings, sticky set `{`, `[`, `<`, fixed width 80. -/
def reflow_paragraph (input : List (List Char)) : List Char :=
  reflowCore 80 ['\x7b', '[', '<'] input.flatten

theorem coalesceAux_ne_nil (f : List Char → List Char → Option (List Char))
    (acc : List Char) (ts : List (List Char)) : coalesceAux f acc ts ≠ [] := by
  induction ts generalizing acc with
  | nil => simp [coalesceAux]
  | cons x restToks ih =>
    rw [coalesceAux]
    cases f acc x with
    | some m => exact ih m
    | none => simp

theorem coalesceAux_dropLast_not_sticky (st : List Char) (acc : List Char)
    (ts : List (List Char)) :
    ∀ u ∈ (coalesceAux (stickyMerge st) acc ts).dropLast, startsWithAny st u = false := by
  induction ts generalizing acc with
  | nil => simp [coalesceAux]
  | cons x restToks ih =>
    rw [coalesceAux]
    rcases hs : startsWithAny st acc with _ | _
    · rw [show stickyMerge st acc x = none from by simp [stickyMerge, hs]]
      rcases ha : coalesceAux (stickyMerge st) x restToks with _ | ⟨y, ys⟩
      · exact absurd ha (coalesceAux_ne_nil _ x restToks)
      · intro u hu
        rw [show (acc :: y :: ys).dropLast = acc :: (y :: ys).dropLast from rfl] at hu
        rcases List.mem_cons.mp hu with h | h
        · rw [h]
          exact hs
        · have := ih x
          rw [ha] at this
          exact this u h
    · rw [show stickyMerge st acc x = some (acc ++ ' ' :: x) from by
        simp [stickyMerge, hs]]
      exact ih (acc ++ ' ' :: x)

theorem coalesceAux_all_not_sticky (st : List Char) (acc : List Char)
    (ts : List (List Char)) (hacc : startsWithAny st acc = false)
    (hts : ∀ t ∈ ts, startsWithAny st t = false) :
    coalesceAux (stickyMerge st) acc ts = acc :: ts := by
  induction ts generalizing acc with
  | nil => simp [coalesceAux]
  | cons x restToks ih =>
    rw [coalesceAux]
    rw [show stickyMerge st acc x = none from by simp [stickyMerge, hacc]]
    rw [ih x (hts x (by simp)) (fun t ht => hts t (by simp [ht]))]

/-- C7: behavior of the sticky-token coalescing in paragraph reflow, for any
sticky set (`{` in the tree formatter, `{`/`[`/`<` in the flat-AST
formatter): (1) no unit of the coalesced output other than the final one
starts with a sticky character, so a sticky token is never followed by a
unit boundary (and line breaks only occur at unit boundaries); (2) when no
token starts with a sticky character the token list is unchanged — no
merging happens; (3) a token starting with a sticky character is coalesced
with the following token into one unit joined by a single space. -/
theorem coalesce_sticky_behavior (st : List Char) (ts : List (List Char)) :
    ((∀ u ∈ (coalesce (stickyMerge st) ts).dropLast, startsWithAny st u = false)
    ∧ ((∀ t ∈ ts, startsWithAny st t = false) → coalesce (stickyMerge st) ts = ts)
    ∧ (∀ a b (restToks : List (List Char)), ts = a :: b :: restToks →
        startsWithAny st a = true →
        coalesce (stickyMerge st) ts =
          coalesce (stickyMerge st) ((a ++ ' ' :: b) :: restToks))) := by
  refine ⟨?_, ?_, ?_⟩
  · cases ts with
    | nil => simp [coalesce]
    | cons x restToks => exact coalesceAux_dropLast_not_sticky st x restToks
  · intro h
    cases ts with
    | nil => rfl
    | cons x restToks =>
      exact coalesceAux_all_not_sticky st x restToks (h x (by simp))
        (fun t ht => h t (by simp [ht]))
  · intro a b restToks hts ha
    subst hts
    rw [coalesce, coalesce, coalesceAux]
    rw [show stickyMerge st a b = some (a ++ ' ' :: b) from by simp [stickyMerge, ha]]

/-- Concrete instance of the coalescing: the unit opened by a brace absorbs
the following token. -/
theorem coalesce_sticky_behavior_witness :
    coalesce (stickyMerge ['\x7b']) [['\x7b', 'a'], ['b'], ['c']] =
      coalesce (stickyMerge ['\x7b']) [['\x7b', 'a', ' ', 'b'], ['c']] :=
  (coalesce_sticky_behavior ['\x7b'] [['\x7b', 'a'], ['b'], ['c']]).2.2
    ['\x7b', 'a'] ['b'] [['c']] rfl (by decide)

theorem length_ltrim_le (s : List Char) : (ltrimChars s).length ≤ s.length :=
  (List.dropWhile_sublist isWs).length_le

theorem mem_of_mem_ltrim {c : Char} {s : List Char} (h : c ∈ ltrimChars s) : c ∈ s :=
  (List.dropWhile_sublist isWs).subset h

theorem length_rtrim_le (s : List Char) : (rtrimChars s).length ≤ s.length := by
  rw [rtrimChars]
  calc (s.reverse.dropWhile isWs).reverse.length
      = (s.reverse.dropWhile isWs).length := by simp
    _ ≤ s.reverse.length := (List.dropWhile_sublist isWs).length_le
    _ = s.length := by simp

theorem mem_of_mem_rtrim {c : Char} {s : List Char} (h : c ∈ rtrimChars s) : c ∈ s := by
  rw [rtrimChars, List.mem_reverse] at h
  have := (List.dropWhile_sublist isWs).subset h
  simpa using this

theorem length_trim_le (s : List Char) : (trimChars s).length ≤ s.length :=
  le_trans (length_rtrim_le _) (length_ltrim_le _)

theorem mem_of_mem_trim {c : Char} {s : List Char} (h : c ∈ trimChars s) : c ∈ s :=
  mem_of_mem_ltrim (mem_of_mem_rtrim h)

theorem rtrim_cons (c : Char) (r : List Char) :
    rtrimChars (c :: r) =
      if (r.reverse.dropWhile isWs).isEmpty then (if isWs c then [] else [c])
      else c :: rtrimChars r := by
  rw [rtrimChars, List.reverse_cons, List.dropWhile_append]
  rcases hd : r.reverse.dropWhile isWs with _ | ⟨y, ys⟩
  · rcases hc : isWs c with _ | _ <;> simp [List.dropWhile, hc]
  · simp [rtrimChars, hd]

theorem ltrim_cons_ws {c : Char} (r : List Char) (hc : isWs c = true) :
    ltrimChars (c :: r) = ltrimChars r := by
  simp [ltrimChars, List.dropWhile_cons, hc]

theorem ltrim_cons_not_ws {c : Char} (r : List Char) (hc : isWs c = false) :
    ltrimChars (c :: r) = c :: r := by
  simp [ltrimChars, List.dropWhile_cons, hc]

theorem ltrim_rtrim_comm (s : List Char) :
    ltrimChars (rtrimChars s) = rtrimChars (ltrimChars s) := by
  induction s with
  | nil => rfl
  | cons c r ih =>
    rw [rtrim_cons]
    rcases hd : r.reverse.dropWhile isWs with _ | ⟨y, ys⟩
    · have hall : ∀ x ∈ r.reverse, isWs x = true := by
        rw [← List.dropWhile_eq_nil_iff]
        exact hd
      have hallr : ∀ x ∈ r, isWs x = true := fun x hx =>
        hall x (by simpa using hx)
      have hltr : ltrimChars r = [] := by
        rw [ltrimChars, List.dropWhile_eq_nil_iff]
        exact hallr
      rcases hc : isWs c with _ | _
      · simp only [List.isEmpty_nil, if_true]
        rw [ltrim_cons_not_ws r hc, rtrim_cons, hd]
        simp [hc, ltrimChars, List.dropWhile, List.dropWhile_cons]
      · simp only [List.isEmpty_nil, if_true]
        rw [ltrim_cons_ws r hc, hltr]
        rfl
    · have hne : ¬ (r.reverse.dropWhile isWs).isEmpty := by
        rw [hd]
        simp
      simp only [hd, List.isEmpty_cons, if_false, Bool.false_eq_true]
      rcases hc : isWs c with _ | _
      · rw [ltrim_cons_not_ws (rtrimChars r) hc, ltrim_cons_not_ws r hc, rtrim_cons, hd]
        simp
      · rw [ltrim_cons_ws (rtrimChars r) hc, ltrim_cons_ws r hc]
        exact ih

theorem ltrim_idem (s : List Char) : ltrimChars (ltrimChars s) = ltrimChars s := by
  rw [ltrimChars, ltrimChars, List.dropWhile_idempotent]

theorem rtrim_idem (s : List Char) : rtrimChars (rtrimChars s) = rtrimChars s := by
  rw [rtrimChars, rtrimChars, List.reverse_reverse, List.dropWhile_idempotent]

theorem ltrim_trim (s : List Char) : ltrimChars (trimChars s) = trimChars s := by
  rw [trimChars, ltrim_rtrim_comm, ltrim_idem]

theorem rtrim_trim (s : List Char) : rtrimChars (trimChars s) = trimChars s := by
  rw [trimChars, rtrim_idem]

theorem trim_idem (s : List Char) : trimChars (trimChars s) = trimChars s := by
  rw [show trimChars (trimChars s) = rtrimChars (ltrimChars (trimChars s)) from rfl,
    ltrim_trim, rtrim_trim]

theorem ltrim_reverse (s : List Char) : ltrimChars s.reverse = (rtrimChars s).reverse := by
  rw [ltrimChars, rtrimChars, List.reverse_reverse]

theorem rtrim_reverse (s : List Char) : rtrimChars s.reverse = (ltrimChars s).reverse := by
  rw [rtrimChars, List.reverse_reverse, ltrimChars]

theorem trim_reverse (s : List Char) : trimChars s.reverse = (trimChars s).reverse := by
  rw [trimChars, ltrim_reverse, rtrim_reverse, ltrim_rtrim_comm]
  rfl

theorem splitExcl_ne_nil (p : Char → Bool) (s : List Char) : splitExcl p s ≠ [] := by
  induction s with
  | nil => simp [splitExcl]
  | cons c r ih =>
    rw [splitExcl]
    rcases hc : p c with _ | _
    · rcases hs : splitExcl p r with _ | ⟨h, t⟩ <;> simp [hc]
    · simp [hc]

theorem linesOf_ne_nil (s : List Char) : linesOf s ≠ [] :=
  splitExcl_ne_nil _ s

theorem linesOf_cons_break (r : List Char) : linesOf ('\n' :: r) = [] :: linesOf r := by
  rw [linesOf, splitExcl]
  simp [linesOf]

theorem linesOf_cons_not_break {c : Char} {r : List Char} {h : List Char}
    {t : List (List Char)} (hc : ¬ (c = '\n')) (hsp : linesOf r = h :: t) :
    linesOf (c :: r) = (c :: h) :: t := by
  rw [linesOf, splitExcl]
  rw [show splitExcl (fun c => decide (c = '\n')) r = h :: t from hsp]
  simp [hc]

theorem linesOf_no_break (l : List Char) (h : '\n' ∉ l) : linesOf l = [l] := by
  induction l with
  | nil => rfl
  | cons c r ih =>
    have hc : ¬ (c = '\n') := fun hh => h (by simp [hh])
    have hr : '\n' ∉ r := fun hh => h (by simp [hh])
    rw [linesOf_cons_not_break hc (ih hr)]

theorem linesOf_append (a b : List Char) :
    linesOf (a ++ b) = (linesOf a).dropLast ++
      (((linesOf a).getLast?.getD [] ++ ((linesOf b).head?.getD [])) ::
        (linesOf b).tail) := by
  induction a with
  | nil =>
    rcases hb : linesOf b with _ | ⟨h, t⟩
    · exact absurd hb (linesOf_ne_nil b)
    · rw [List.nil_append, hb]
      simp [linesOf, splitExcl]
  | cons c a' ih =>
    rcases ha : linesOf a' with _ | ⟨h, t⟩
    · exact absurd ha (linesOf_ne_nil a')
    · by_cases hc : c = '\n'
      · subst hc
        rw [List.cons_append, linesOf_cons_break, linesOf_cons_break, ih, ha]
        simp
      · rw [List.cons_append]
        cases t with
        | nil =>
          have hIH : linesOf (a' ++ b) =
              (h ++ (linesOf b).head?.getD []) :: (linesOf b).tail := by
            rw [ih, ha]
            simp
          rw [linesOf_cons_not_break hc hIH, linesOf_cons_not_break hc ha]
          simp
        | cons y ys =>
          have hIH : linesOf (a' ++ b) =
              h :: ((y :: ys).dropLast ++
                (((y :: ys).getLast?.getD [] ++ (linesOf b).head?.getD []) ::
                  (linesOf b).tail)) := by
            rw [ih, ha]
            simp
          rw [linesOf_cons_not_break hc hIH, linesOf_cons_not_break hc ha]
          simp

theorem dropLast_append_getLastD (l : List (List Char)) (hne : l ≠ []) :
    l.dropLast ++ [l.getLast?.getD []] = l := by
  induction l with
  | nil => exact absurd rfl hne
  | cons x xs ih =>
    cases xs with
    | nil => rfl
    | cons y ys =>
      rw [show (x :: y :: ys).dropLast = x :: (y :: ys).dropLast from rfl,
        List.getLast?_cons_cons, List.cons_append, ih (by simp)]

theorem linesOf_append_break (a s : List Char) (h : '\n' ∉ a) :
    linesOf (a ++ '\n' :: s) = a :: linesOf s := by
  rw [linesOf_append, linesOf_no_break a h, linesOf_cons_break]
  simp

theorem joinSep_cons_cons (sep x y : List Char) (ys : List (List Char)) :
    joinSep sep (x :: y :: ys) = x ++ sep ++ joinSep sep (y :: ys) := rfl

theorem joinSep_linesOf (lls : List (List Char)) (hnb : ∀ l ∈ lls, '\n' ∉ l)
    (hne : lls ≠ []) : linesOf (joinSep ['\n'] lls) = lls := by
  induction lls with
  | nil => exact absurd rfl hne
  | cons x xs ih =>
    cases xs with
    | nil => exact linesOf_no_break x (hnb x (by simp))
    | cons y ys =>
      rw [joinSep_cons_cons]
      rw [show x ++ ['\n'] ++ joinSep ['\n'] (y :: ys) =
          x ++ '\n' :: joinSep ['\n'] (y :: ys) from by simp]
      rw [linesOf_append_break _ _ (hnb x (by simp))]
      rw [ih (fun l hl => hnb l (by simp [hl])) (by simp)]

theorem linesOf_snoc_break (a : List Char) :
    linesOf (a ++ ['\n']) = linesOf a ++ [[]] := by
  rw [linesOf_append]
  rw [show linesOf ['\n'] = [[], []] from rfl]
  simp only [List.head?_cons, Option.getD_some, List.tail_cons, List.append_nil]
  rw [show ((linesOf a).getLast?.getD []) :: ([[]] : List (List Char)) =
      [(linesOf a).getLast?.getD []] ++ [[]] from rfl]
  rw [← List.append_assoc, dropLast_append_getLastD _ (linesOf_ne_nil a)]

theorem linesOf_snoc_not_break (a : List Char) (c : Char) (hc : ¬ (c = '\n')) :
    linesOf (a ++ [c]) =
      (linesOf a).dropLast ++ [((linesOf a).getLast?.getD []) ++ [c]] := by
  rw [linesOf_append]
  rw [show linesOf [c] = [[c]] from linesOf_no_break [c]
    (by intro hmem; simp at hmem; exact hc hmem.symm)]
  simp

theorem linesOf_reverse (s : List Char) :
    linesOf s.reverse = ((linesOf s).map List.reverse).reverse := by
  induction s with
  | nil => rfl
  | cons c r ih =>
    rcases ha : linesOf r with _ | ⟨h, t⟩
    · exact absurd ha (linesOf_ne_nil r)
    · by_cases hc : c = '\n'
      · subst hc
        rw [List.reverse_cons, linesOf_snoc_break, ih, linesOf_cons_break, ha]
        simp
      · rw [List.reverse_cons, linesOf_snoc_not_break _ _ hc, ih, ha,
          linesOf_cons_not_break hc ha]
        simp

theorem trimline_of_ltrim (s : List Char) :
    ∀ l ∈ linesOf (ltrimChars s), ∃ l0 ∈ linesOf s,
      l.length ≤ l0.length ∧ trimChars l = trimChars l0 := by
  induction s with
  | nil =>
    intro l hl
    exact ⟨l, hl, le_refl _, rfl⟩
  | cons c r ih =>
    rcases hcw : isWs c with _ | _
    · rw [ltrim_cons_not_ws r hcw]
      intro l hl
      exact ⟨l, hl, le_refl _, rfl⟩
    · rw [ltrim_cons_ws r hcw]
      intro l hl
      obtain ⟨l0, hl0, hlen, htr⟩ := ih l hl
      by_cases hc : c = '\n'
      · subst hc
        refine ⟨l0, ?_, hlen, htr⟩
        rw [linesOf_cons_break]
        exact List.mem_cons_of_mem _ hl0
      · rcases ha : linesOf r with _ | ⟨h, t⟩
        · exact absurd ha (linesOf_ne_nil r)
        · rw [ha] at hl0
          rcases List.mem_cons.mp hl0 with hh | hh
          · subst hh
            refine ⟨c :: l0, by rw [linesOf_cons_not_break hc ha]; simp, ?_, ?_⟩
            · exact le_trans hlen (by simp)
            · rw [htr, show trimChars (c :: l0) = trimChars l0 from by
                rw [trimChars, ltrim_cons_ws l0 hcw]
                rfl]
          · refine ⟨l0, ?_, hlen, htr⟩
            rw [linesOf_cons_not_break hc ha]
            simp [hh]

theorem trimline_of_rtrim (s : List Char) :
    ∀ l ∈ linesOf (rtrimChars s), ∃ l0 ∈ linesOf s,
      l.length ≤ l0.length ∧ trimChars l = trimChars l0 := by
  intro l hl
  have hrw : rtrimChars s = (ltrimChars s.reverse).reverse := by
    rw [ltrim_reverse, List.reverse_reverse]
  rw [hrw, linesOf_reverse, List.mem_reverse, List.mem_map] at hl
  obtain ⟨m, hm, hml⟩ := hl
  obtain ⟨m0, hm0, hlen, htr⟩ := trimline_of_ltrim s.reverse m hm
  rw [linesOf_reverse, List.mem_reverse, List.mem_map] at hm0
  obtain ⟨l0, hl0, hl0m⟩ := hm0
  refine ⟨l0, hl0, ?_, ?_⟩
  · calc l.length = m.length := by rw [← hml]; simp
    _ ≤ m0.length := hlen
    _ = l0.length := by rw [← hl0m]; simp
  · calc trimChars l = trimChars m.reverse := by rw [hml]
    _ = (trimChars m).reverse := trim_reverse m
    _ = (trimChars m0).reverse := by rw [htr]
    _ = trimChars m0.reverse := (trim_reverse m0).symm
    _ = trimChars l0 := by rw [← hl0m, List.reverse_reverse]

theorem trimline_of_trim (s : List Char) :
    ∀ l ∈ linesOf (trimChars s), ∃ l0 ∈ linesOf s,
      l.length ≤ l0.length ∧ trimChars l = trimChars l0 := by
  intro l hl
  rw [trimChars] at hl
  obtain ⟨l1, hl1, hlen1, htr1⟩ := trimline_of_rtrim (ltrimChars s) l hl
  obtain ⟨l0, hl0, hlen0, htr0⟩ := trimline_of_ltrim s l1 hl1
  exact ⟨l0, hl0, le_trans hlen1 hlen0, htr1.trans htr0⟩

theorem rsplit_pieces_ws_free (p : Char → Bool) (s : List Char) :
    ∀ piece ∈ (rsplit p s).1, ∀ c ∈ piece, p c = false := by
  induction s with
  | nil =>
    intro piece hp c hc
    simp [rsplit] at hp
    subst hp
    simp at hc
  | cons d r ih =>
    rw [rsplit]
    rcases hsp : rsplit p r with ⟨ps, ms⟩
    rw [hsp] at ih
    intro piece hp c hc
    rcases hd : p d with _ | _
    · cases ps with
      | nil =>
        simp [rsplitStep, hd] at hp
        subst hp
        simp at hc
        subst hc
        exact hd
      | cons piece0 ps' =>
        simp [rsplitStep, hd] at hp
        rcases hp with h1 | h2
        · subst h1
          rcases List.mem_cons.mp hc with h3 | h4
          · subst h3
            exact hd
          · exact ih piece0 (by simp) c h4
        · exact ih piece (by simp [h2]) c hc
    · cases ps with
      | nil =>
        simp [rsplitStep, hd] at hp
        subst hp
        simp at hc
      | cons piece0 ps' =>
        cases piece0 with
        | nil =>
          cases ms with
          | nil =>
            simp [rsplitStep, hd] at hp
            rcases hp with h1 | h2
            · subst h1
              simp at hc
            · exact ih piece (by simp [h2]) c hc
          | cons m ms' =>
            simp [rsplitStep, hd] at hp
            rcases hp with h1 | h2
            · subst h1
              simp at hc
            · exact ih piece (by simp [h2]) c hc
        | cons e piece0' =>
          simp [rsplitStep, hd] at hp
          rcases hp with h1 | h2
          · subst h1
            simp at hc
          · exact ih piece (by simp [h2]) c hc

theorem coalesceAux_no_break (st : List Char) (acc : List Char)
    (ts : List (List Char)) (hacc : '\n' ∉ acc) (hts : ∀ t ∈ ts, '\n' ∉ t) :
    ∀ u ∈ coalesceAux (stickyMerge st) acc ts, '\n' ∉ u := by
  induction ts generalizing acc with
  | nil =>
    intro u hu
    simp [coalesceAux] at hu
    subst hu
    exact hacc
  | cons x restToks ih =>
    rw [coalesceAux]
    cases hf : stickyMerge st acc x with
    | some m =>
      have hm : '\n' ∉ m := by
        rcases hsk : startsWithAny st acc with _ | _
        · rw [stickyMerge, hsk] at hf
          simp at hf
        · rw [stickyMerge, hsk] at hf
          simp at hf
          subst hf
          intro hmem
          rcases List.mem_append.mp hmem with h1 | h2
          · exact hacc h1
          · rcases List.mem_cons.mp h2 with h3 | h4
            · exact absurd h3 (by decide)
            · exact hts x (by simp) h4
      exact ih m hm (fun t ht => hts t (by simp [ht]))
    | none =>
      intro u hu
      rcases List.mem_cons.mp hu with h1 | h2
      · subst h1
        exact hacc
      · exact ih x (hts x (by simp)) (fun t ht => hts t (by simp [ht])) u h2

theorem coalesce_no_break (st : List Char) (ts : List (List Char))
    (hts : ∀ t ∈ ts, '\n' ∉ t) :
    ∀ u ∈ coalesce (stickyMerge st) ts, '\n' ∉ u := by
  cases ts with
  | nil => simp [coalesce]
  | cons x restToks =>
    exact coalesceAux_no_break st x restToks (hts x (by simp))
      (fun t ht => hts t (by simp [ht]))

/-- The per-line invariant of the greedy reflow: a line either fits in the
width or is (the trimming of) a single oversized token. -/
def lineOK (L : Nat) (ts : List (List Char)) (l : List Char) : Prop :=
  l.length ≤ L ∨ ∃ t ∈ ts, L ≤ t.length ∧ l.length ≤ t.length ∧
    trimChars l = trimChars t

theorem reflowStep_inv (L : Nat) (ts : List (List Char))
    (lines : List (List Char)) (w : List Char) (hw : w ∈ ts) (hwn : '\n' ∉ w)
    (hinv : ∀ l ∈ lines, lineOK L ts l ∧ '\n' ∉ l) :
    ∀ l ∈ reflowStep L lines w, lineOK L ts l ∧ '\n' ∉ l := by
  rw [reflowStep]
  cases hlast : lines.getLast? with
  | none => exact hinv
  | some cur =>
    have hcur := hinv cur (List.mem_of_mem_getLast? hlast)
    by_cases hfit : cur.length + w.length < L
    · simp only [hfit, if_true]
      intro l hl
      rcases List.mem_append.mp hl with hd | hs
      · exact hinv l (List.mem_of_mem_dropLast hd)
      · rw [List.mem_singleton] at hs
        subst hs
        refine ⟨Or.inl ?_, ?_⟩
        · simp only [List.length_append, List.length_cons]
          omega
        · intro hmem
          rcases List.mem_append.mp hmem with h1 | h2
          · exact hcur.2 h1
          · rcases List.mem_cons.mp h2 with h3 | h4
            · exact absurd h3 (by decide)
            · exact hwn h4
    · simp only [hfit, if_false]
      intro l hl
      rcases List.mem_append.mp hl with hd | hs
      · exact hinv l (List.mem_of_mem_dropLast hd)
      · rcases List.mem_cons.mp hs with h1 | h2
        · subst h1
          refine ⟨?_, fun hmem => hcur.2 (mem_of_mem_trim hmem)⟩
          rcases hcur.1 with hle | ⟨t, ht, hLt, hlen, heq⟩
          · exact Or.inl (le_trans (length_trim_le cur) hle)
          · exact Or.inr ⟨t, ht, hLt, le_trans (length_trim_le cur) hlen,
              by rw [trim_idem, heq]⟩
        · rw [List.mem_singleton] at h2
          subst h2
          refine ⟨?_, hwn⟩
          rcases le_or_lt l.length L with hle | hgt
          · exact Or.inl hle
          · exact Or.inr ⟨l, hw, le_of_lt hgt, le_refl _, rfl⟩

theorem reflowStep_ne_nil (L : Nat) (lines : List (List Char)) (w : List Char)
    (hne : lines ≠ []) : reflowStep L lines w ≠ [] := by
  rw [reflowStep]
  cases hlast : lines.getLast? with
  | none => exact hne
  | some cur =>
    by_cases hfit : cur.length + w.length < L <;> simp [hfit]

theorem reflowFold_inv (L : Nat) (ts ws : List (List Char))
    (hws : ∀ w ∈ ws, w ∈ ts ∧ '\n' ∉ w) :
    ∀ lines, (∀ l ∈ lines, lineOK L ts l ∧ '\n' ∉ l) → lines ≠ [] →
      ((∀ l ∈ ws.foldl (reflowStep L) lines, lineOK L ts l ∧ '\n' ∉ l) ∧
        ws.foldl (reflowStep L) lines ≠ []) := by
  induction ws with
  | nil =>
    intro lines hinv hne
    exact ⟨hinv, hne⟩
  | cons w ws' ih =>
    intro lines hinv hne
    rw [List.foldl_cons]
    exact ih (fun w' hw' => hws w' (by simp [hw']))
      (reflowStep L lines w)
      (reflowStep_inv L ts lines w (hws w (by simp)).1 (hws w (by simp)).2 hinv)
      (reflowStep_ne_nil L lines w hne)

/-- C2: the reflow width bound for `inline::paragraph`.  Every line of the
rendered paragraph either has at most `config.line_length` characters, or
consists of a single unbreakable token (a whitespace-free split token or a
coalesced sticky unit, up to the fold's own boundary-whitespace trimming)
whose own length is at least `config.line_length`. -/
theorem paragraph_line_width (cfg : Config) (children : List NorgNode)
    (l : List Char) (hl : l ∈ linesOf (paragraph cfg children)) :
    l.length ≤ cfg.line_length ∨
      ∃ t ∈ coalesce (stickyMerge ['\x7b'])
          (rsplit isWs ((children.map NorgNode.content).flatten)).1,
        cfg.line_length ≤ t.length ∧ l.length ≤ t.length ∧
          trimChars l = trimChars t := by
  have hpieces : ∀ piece ∈ (rsplit isWs ((children.map NorgNode.content).flatten)).1,
      '\n' ∉ piece := by
    intro piece hp hmem
    have := rsplit_pieces_ws_free isWs _ piece hp '\n' hmem
    exact absurd this (by decide)
  have htok : ∀ t ∈ coalesce (stickyMerge ['\x7b'])
      (rsplit isWs ((children.map NorgNode.content).flatten)).1, '\n' ∉ t :=
    coalesce_no_break _ _ hpieces
  have hinv := reflowFold_inv cfg.line_length
    (coalesce (stickyMerge ['\x7b'])
      (rsplit isWs ((children.map NorgNode.content).flatten)).1)
    (coalesce (stickyMerge ['\x7b'])
      (rsplit isWs ((children.map NorgNode.content).flatten)).1)
    (fun w hw => ⟨hw, htok w hw⟩) [[]]
    (by
      intro l0 hl0
      simp only [List.mem_singleton] at hl0
      subst hl0
      exact ⟨Or.inl (Nat.zero_le _), by simp⟩)
    (by simp)
  have hjoin := joinSep_linesOf _ (fun l0 hl0 => (hinv.1 l0 hl0).2) hinv.2
  have hpar : paragraph cfg children = trimChars (joinSep ['\n']
      ((coalesce (stickyMerge ['\x7b'])
        (rsplit isWs ((children.map NorgNode.content).flatten)).1).foldl
        (reflowStep cfg.line_length) [[]])) := rfl
  rw [hpar] at hl
  obtain ⟨l0, hl0, hlen, htr⟩ := trimline_of_trim _ l hl
  rw [hjoin] at hl0
  rcases (hinv.1 l0 hl0).1 with hle | ⟨t, ht, hLt, hlen0, htr0⟩
  · exact Or.inl (le_trans hlen hle)
  · exact Or.inr ⟨t, ht, hLt, le_trans hlen hlen0, htr.trans htr0⟩

/-- Concrete instance of the width bound at width 5 on content `ab cd`. -/
theorem paragraph_line_width_witness :
    (['a', 'b'] ∈ linesOf (paragraph ⟨false, false, 5⟩
        [⟨"word", ['a', 'b', ' ', 'c', 'd']⟩])) ∧
    (['a', 'b'].length ≤ 5 ∨
      ∃ t ∈ coalesce (stickyMerge ['\x7b'])
          (rsplit isWs (([⟨"word", ['a', 'b', ' ', 'c', 'd']⟩].map
            (NorgNode.content)).flatten)).1,
        5 ≤ t.length ∧ ['a', 'b'].length ≤ t.length ∧
          trimChars ['a', 'b'] = trimChars t) :=
  ⟨by decide, paragraph_line_width ⟨false, false, 5⟩
    [⟨"word", ['a', 'b', ' ', 'c', 'd']⟩] ['a', 'b'] (by decide)⟩

mutual
/-- A concrete syntax tree node: kind tag, verbatim source text of its span,
and ordered children. -/
inductive STree where
  | mk (kind : String) (text : List Char) (children : STreeList)
/-- The ordered children of a syntax node. -/
inductive STreeList where
  | nil
  | cons (t : STree) (ts : STreeList)
end

def STree.kind : STree → String
  | .mk k _ _ => k

def STree.text : STree → List Char
  | .mk _ tx _ => tx

def STreeList.toList : STreeList → List STree
  | .nil => []
  | .cons t ts => t :: ts.toList

def STreeList.isNil : STreeList → Bool
  | .nil => true
  | .cons _ _ => false

/-- `parse_nestable_modifier` from src/main.rs (split on single `[\n\r]`
characters, terminators dropped, no blank-line exemption, prefix untrimmed). -/
def parse_nestable_modifier (children : List NorgNode) : Option (List Char) :=
  match children with
  | [] => none
  | c0 :: cs =>
    match splitExcl isBreak ((cs.map NorgNode.content).flatten) with
    | [] => none
    | firstLine :: laterLines =>
      some (c0.content ++ ' ' :: firstLine ++
        (laterLines.map (fun str => spaces (c0.content.length + 1) ++ str)).flatten)

/-- `inline::uri` from src/inline.rs: drop every whitespace character of the
node's source text. -/
def uri (text : List Char) : List Char :=
  text.filter (fun c => !isWs c)

/-- `inline::anchor` from src/inline.rs: trim the node's source text and
collapse interior whitespace runs to single spaces. -/
def anchor (text : List Char) : List Char :=
  collapseRuns isWs (trimChars text)

/-- `inline::link_scope` from src/inline.rs: scope child 0, title child 1
with whitespace runs collapsed, joined by a space and trimmed. -/
def link_scope (children : List NorgNode) : Option (List Char) :=
  match children.get? 0, children.get? 1 with
  | some c0, some c1 =>
    some (trimChars (c0.content ++ ' ' :: collapseRuns isWs c1.content))
  | _, _ => none

/-- `str::starts_with` on kind tags. -/
def strStartsWith (s pre : String) : Bool :=
  pre.toList.isPrefixOf s.toList

/-- The node-kind dispatch of `parse` in src/main.rs. -/
def dispatch (cfg : Config) (kind : String) (text : List Char) (leaf : Bool)
    (cs : List NorgNode) : Option (List Char) :=
  if kind = "heading" then heading cs cfg
  else if kind = "heading_stars" then some (trimChars text)
  else if kind = "title" then some (trimChars text)
  else if kind = "unordered_list_item" ∨ kind = "ordered_list_item" ∨
      kind = "quote_list_item" then parse_nestable_modifier cs
  else if kind = "bold" ∨ kind = "italic" ∨ kind = "underline" ∨
      kind = "strikethrough" ∨ kind = "spoiler" ∨ kind = "superscript" ∨
      kind = "subscript" ∨ kind = "verbatim" ∨ kind = "inline_comment" ∨
      kind = "math" ∨ kind = "inline_macro" then markup cs
  else if kind = "escape_sequence" then escape_sequence text
  else if kind = "uri" then some (uri text)
  else if kind = "description" then some (anchor text)
  else if kind = "paragraph" then some (paragraph cfg cs)
  else if strStartsWith kind "link_scope_" ∨ strStartsWith kind "link_target_" then
    link_scope cs
  else if leaf then some text
  else some (rest cs none none)

mutual
/-- The recursive bottom-up walker `parse` of src/main.rs: render every child
first (the first child error aborts), then dispatch on the node kind. -/
def parse (cfg : Config) : STree → Option (List Char)
  | STree.mk kind text children =>
    match parseChildren cfg children with
    | none => none
    | some cs => dispatch cfg kind text children.isNil cs
/-- The child loop of `parse`: renders children left to right, propagating
the first error. -/
def parseChildren (cfg : Config) : STreeList → Option (List NorgNode)
  | STreeList.nil => some []
  | STreeList.cons t ts =>
    match parse cfg t with
    | none => none
    | some s =>
      match parseChildren cfg ts with
      | none => none
      | some restNodes => some (NorgNode.mk t.kind s :: restNodes)
end

theorem parseChildren_none (cfg : Config) :
    ∀ ts : STreeList, (∃ c ∈ ts.toList, parse cfg c = none) →
      parseChildren cfg ts = none
  | STreeList.nil, h => by simp [STreeList.toList] at h
  | STreeList.cons t ts, h => by
    obtain ⟨c, hc, hcn⟩ := h
    rw [STreeList.toList] at hc
    rw [parseChildren]
    rcases List.mem_cons.mp hc with h1 | h2
    · subst h1
      rw [hcn]
    · rw [parseChildren_none cfg ts ⟨c, h2, hcn⟩]
      cases parse cfg t <;> rfl

theorem heading_too_few (cs : List NorgNode) (cfg : Config)
    (h : cs.length ≤ 1) : heading cs cfg = none := by
  match cs with
  | [] => rfl
  | [c] => rfl
  | a :: b :: more => simp at h

theorem parseChildren_length (cfg : Config) :
    ∀ (ts : STreeList) (cs : List NorgNode), parseChildren cfg ts = some cs →
      cs.length = ts.toList.length
  | STreeList.nil, cs, h => by
    rw [parseChildren] at h
    simp at h
    subst h
    rfl
  | STreeList.cons t ts, cs, h => by
    rw [parseChildren] at h
    rcases hp : parse cfg t with _ | ⟨s⟩ <;> rw [hp] at h
    · simp at h
    · rcases hr : parseChildren cfg ts with _ | ⟨restNodes⟩ <;> rw [hr] at h
      · simp at h
      · simp at h
        subst h
        rw [STreeList.toList]
        simp [parseChildren_length cfg ts restNodes hr]

/-- C8: rendering is all-or-nothing.  If any child of a node fails to render
then the node's render fails (the walker propagates the first child error),
and a heading node with fewer than the two required structural children
(star prefix at index 0, title at index 1) fails as a whole — no partial
output is ever produced. -/
theorem parse_all_or_nothing (cfg : Config) (k : String) (tx : List Char)
    (ts : STreeList) :
    ((∃ c ∈ ts.toList, parse cfg c = none) → parse cfg (STree.mk k tx ts) = none)
  ∧ (k = "heading" → ts.toList.length ≤ 1 →
      parse cfg (STree.mk k tx ts) = none) := by
  constructor
  · intro h
    rw [parse, parseChildren_none cfg ts h]
  · intro hk hlen
    rw [parse]
    rcases hpc : parseChildren cfg ts with _ | ⟨cs⟩
    · rfl
    · subst hk
      show dispatch cfg "heading" tx ts.isNil cs = none
      have hd : dispatch cfg "heading" tx ts.isNil cs = heading cs cfg := by
        simp [dispatch]
      rw [hd]
      exact heading_too_few cs cfg
        (by rw [parseChildren_length cfg ts cs hpc]; exact hlen)

/-- Concrete instance: a heading node with no children renders to an error. -/
theorem parse_all_or_nothing_witness :
    parse defaultConfig (STree.mk "heading" [] STreeList.nil) = none :=
  (parse_all_or_nothing defaultConfig "heading" [] STreeList.nil).2 rfl (by decide)

/-- The printed output of `main` in src/main.rs: the rendered root, passed
through `str::trim`. -/
def printedOutput (cfg : Config) (t : STree) : Option (List Char) :=
  (parse cfg t).map trimChars

/-- C9 counterexample: the top-level caller trims the LEADING whitespace run
as well, not only the trailing one.  On a leaf root whose verbatim text is
`" a"`, the render succeeds with `" a"` but the printed output is `"a"`,
while trimming only the trailing whitespace run would keep `" a"`. -/
theorem printed_output_strips_leading_ws :
    parse defaultConfig (STree.mk "word" [' ', 'a'] STreeList.nil) =
      some [' ', 'a'] ∧
    printedOutput defaultConfig (STree.mk "word" [' ', 'a'] STreeList.nil) =
      some ['a'] ∧
    rtrimChars [' ', 'a'] = [' ', 'a'] ∧
    printedOutput defaultConfig (STree.mk "word" [' ', 'a'] STreeList.nil) ≠
      some (rtrimChars [' ', 'a']) := by
  refine ⟨by decide, by decide, by decide, by decide⟩

theorem head_dropWhile_false (p : Char → Bool) (l : List Char) (c : Char)
    (t : List Char) (h : l.dropWhile p = c :: t) : p c = false := by
  induction l with
  | nil => simp [List.dropWhile] at h
  | cons d r ih =>
    rw [List.dropWhile_cons] at h
    by_cases hd : p d = true
    · rw [if_pos hd] at h
      exact ih h
    · rw [if_neg hd] at h
      injection h with h1 h2
      subst h1
      simpa using hd

theorem trim_decomposition (s : List Char) :
    ∃ a b, s = a ++ trimChars s ++ b ∧ (∀ c ∈ a, isWs c = true) ∧
      (∀ c ∈ b, isWs c = true) := by
  refine ⟨s.takeWhile isWs, ((ltrimChars s).reverse.takeWhile isWs).reverse,
    ?_, ?_, ?_⟩
  · conv_lhs => rw [← List.takeWhile_append_dropWhile isWs s]
    rw [List.append_assoc]
    congr 1
    calc ltrimChars s = (ltrimChars s).reverse.reverse := by
          rw [List.reverse_reverse]
    _ = ((ltrimChars s).reverse.takeWhile isWs ++
          (ltrimChars s).reverse.dropWhile isWs).reverse := by
          rw [List.takeWhile_append_dropWhile]
    _ = ((ltrimChars s).reverse.dropWhile isWs).reverse ++
          ((ltrimChars s).reverse.takeWhile isWs).reverse := by
          rw [List.reverse_append]
    _ = trimChars s ++ ((ltrimChars s).reverse.takeWhile isWs).reverse := rfl
  · intro c hc
    exact List.mem_takeWhile_imp hc
  · intro c hc
    rw [List.mem_reverse] at hc
    exact List.mem_takeWhile_imp hc

/-- C9 (amended): the top-level caller applies `str::trim` to the rendered
root, which removes both the leading and the trailing whitespace runs, not
only the trailing one: the printed output is the render minus exactly those
two maximal boundary runs, every interior character unchanged, and the
printed string neither starts nor ends with whitespace. -/
theorem printed_output_trims_both_runs (cfg : Config) (t : STree)
    (s : List Char) (hp : parse cfg t = some s) :
    printedOutput cfg t = some (trimChars s) ∧
    (∃ a b, s = a ++ trimChars s ++ b ∧ (∀ c ∈ a, isWs c = true) ∧
      (∀ c ∈ b, isWs c = true)) ∧
    (∀ c l', trimChars s = c :: l' → isWs c = false) ∧
    (∀ c l', trimChars s = l' ++ [c] → isWs c = false) := by
  refine ⟨by rw [printedOutput, hp]; rfl, trim_decomposition s, ?_, ?_⟩
  · intro c l' h
    have hcomm : trimChars s = ltrimChars (rtrimChars s) := (ltrim_rtrim_comm s).symm
    rw [hcomm] at h
    exact head_dropWhile_false isWs (rtrimChars s) c l' h
  · intro c l' h
    have hrev : (trimChars s).reverse = (ltrimChars s).reverse.dropWhile isWs := by
      rw [trimChars, rtrimChars, List.reverse_reverse]
    rw [h, List.reverse_append] at hrev
    simp only [List.reverse_cons, List.reverse_nil, List.nil_append,
      List.singleton_append] at hrev
    exact head_dropWhile_false isWs _ c l'.reverse hrev.symm

/-- Concrete instance of the amended trimming claim at the root `" a"`. -/
theorem printed_output_trims_both_runs_witness :
    printedOutput defaultConfig (STree.mk "word" [' ', 'a'] STreeList.nil) =
      some (trimChars [' ', 'a']) ∧
    (∃ a b, ([' ', 'a'] : List Char) = a ++ trimChars [' ', 'a'] ++ b ∧
      (∀ c ∈ a, isWs c = true) ∧ (∀ c ∈ b, isWs c = true)) ∧
    (∀ c l', trimChars [' ', 'a'] = c :: l' → isWs c = false) ∧
    (∀ c l', trimChars [' ', 'a'] = l' ++ [c] → isWs c = false) :=
  printed_output_trims_both_runs defaultConfig
    (STree.mk "word" [' ', 'a'] STreeList.nil) [' ', 'a'] (by decide)

/-- Result of a formatter that can also panic: distinguishes a success, a
returned error value, and a panic. -/
inductive PResult where
  | ok (s : List Char)
  | err
  | panic
deriving DecidableEq, Repr

/-- `block::ranged_tag` from src/block.rs.  `PResult.panic` models the
`children.last().unwrap()` panic (and the `children.len() - 1` usize
underflow) on an empty child list; the function contains no fallible `ok_or`
path, so it never produces an error value. -/
def ranged_tag (children : List NorgNode) : PResult :=
  match children.getLast? with
  | none => PResult.panic
  | some lastNode =>
    let hd := rest children none (some 2)
    let parameters := ((children.drop 2).takeWhile
      (fun n => n.kind == "identifier")).map NorgNode.content
    let content := rest children (some (2 + parameters.length))
      (some (children.length - 1))
    PResult.ok (rtrimChars (hd ++ ' ' :: joinSep [' '] parameters) ++
      '\n' :: (content ++ lastNode.content))

/-- C10: the ranged-tag formatter is total exactly on non-empty child lists:
with at least one child the unwrap of the last child succeeds and the
`children.len() - 1` index is well defined, and the formatter produces a
result; invoked on an empty child list it panics (modelled as
`PResult.panic`) rather than returning an error value — indeed no input
makes it return an error value. -/
theorem ranged_tag_totality (children : List NorgNode) (hne : children ≠ []) :
    (∃ s, ranged_tag children = PResult.ok s) ∧
    ranged_tag [] = PResult.panic ∧
    (∀ cs : List NorgNode, ranged_tag cs ≠ PResult.err) := by
  refine ⟨?_, rfl, ?_⟩
  · rcases hlast : children.getLast? with _ | ⟨lastNode⟩
    · exact absurd (List.getLast?_eq_none_iff.mp hlast) hne
    · exact ⟨_, by rw [ranged_tag, hlast]⟩
  · intro cs
    rcases hlast : cs.getLast? with _ | ⟨lastNode⟩ <;> rw [ranged_tag, hlast] <;> simp

/-- Concrete instance of the ranged-tag totality at a one-child list. -/
theorem ranged_tag_totality_witness :
    (∃ s, ranged_tag [⟨"x", ['a', 'b']⟩] = PResult.ok s) ∧
    ranged_tag [] = PResult.panic ∧
    (∀ cs : List NorgNode, ranged_tag cs ≠ PResult.err) :=
  ranged_tag_totality [⟨"x", ['a', 'b']⟩] (by decide)

end NorgFmt
